import Mathlib

/-!
Verification of the A* search core of the rust-eve-astar repository.

The embedding instantiates the Rust generics as follows: the node type
(`SolarSystemIndex` in the program) is `Nat`, and the cost type (generic
over ordered additive types, used with non-negative integer jump costs)
is `Nat`.  The closed list (a dense vector in `simpleclosed.rs`) is a
total map `Nat → ClosedListState`; the open list (a `BinaryHeap` in
`simpleopen.rs`) is a list of `OpenItem`, with `popMin` extracting a
minimum-priority element, which is the contract `BinaryHeap::pop`
provides under the reversed ordering of `impl Ord for OpenItem`.
The `astar` loop of `astar.rs`, which need not terminate on infinite
graphs, is given a fuel parameter; `none` means the fuel ran out.
-/

namespace EveAstar

/-- ClosedListState mirrors the enum of the same name in astar.rs:
a node is unvisited, a starting point with a baseline cost, or reached
from a predecessor node at an accumulated cost. -/
inductive ClosedListState where
  | Unvisited : ClosedListState
  | StartingPoint : Nat → ClosedListState
  | PathFrom : Nat → Nat → ClosedListState
deriving DecidableEq, Repr

open ClosedListState

/-- Closed models the closed list (SimpleClosed in simpleclosed.rs) as a
total map from node indices to visitation states. -/
abbrev Closed := Nat → ClosedListState

/-- setClosed models the assignment through IndexMut in simpleclosed.rs. -/
def setClosed (cl : Closed) (n : Nat) (s : ClosedListState) : Closed :=
  fun m => if m = n then s else cl m

/-- OpenItem mirrors the struct of the same name in astar.rs: the field
named heuristic holds the priority (accumulated cost plus heuristic
estimate) and node holds the node index. -/
structure OpenItem where
  heuristic : Nat
  node : Nat
deriving DecidableEq, Repr

/-- openItemEq mirrors the PartialEq implementation for OpenItem in
astar.rs, which compares the node fields. -/
def openItemEq (a b : OpenItem) : Bool :=
  a.node == b.node

/-- openItemCmp mirrors the Ord and PartialOrd implementations for
OpenItem in astar.rs: compare the heuristic fields and reverse the
result so that the max-first BinaryHeap behaves min-first. -/
def openItemCmp (a b : OpenItem) : Ordering :=
  (compare a.heuristic b.heuristic).swap

/-- popMin models SimpleOpenList::pop_min: BinaryHeap::pop returns a
greatest element with respect to openItemCmp, which is an element of
minimal heuristic (priority); the result pairs the extracted item with
the remaining items. -/
def popMin : List OpenItem → Option (OpenItem × List OpenItem)
  | [] => none
  | x :: xs =>
    match popMin xs with
    | none => some (x, [])
    | some (y, ys) => if x.heuristic ≤ y.heuristic then some (x, xs) else some (y, x :: ys)

/-- AStarError mirrors the error enum of astar.rs. -/
inductive AStarError where
  | OpenItemNotInClosedList : AStarError
  | FoundHigherCostPath : AStarError
  | PathNotFound : AStarError
deriving DecidableEq, Repr

/-- currentCostOf mirrors the match in astar.rs reading the accumulated
cost out of a closed-list entry; Unvisited has no cost and triggers the
OpenItemNotInClosedList error in the driver. -/
def currentCostOf : ClosedListState → Option Nat
  | Unvisited => none
  | StartingPoint c => some c
  | PathFrom _ c => some c

/-- processNeighbours mirrors the for-loop over the neighbour pairs in
astar; it threads the open list and closed list and stops early with an
error when a strictly cheaper path to a labelled node is found.  The
candidate cost is neighbour edge cost plus current cost, as in the
source. -/
def processNeighbours (currentNode currentCost : Nat) (heuristic : Nat → Nat) :
    List (Nat × Nat) → List OpenItem → Closed →
    List OpenItem × Closed × Option AStarError
  | [], op, cl => (op, cl, none)
  | (ncost, nbnode) :: rest, op, cl =>
    let cand := ncost + currentCost
    match cl nbnode with
    | PathFrom _ existing =>
      if existing ≤ cand then
        processNeighbours currentNode currentCost heuristic rest op cl
      else
        (op, cl, some AStarError.FoundHigherCostPath)
    | StartingPoint _ =>
      processNeighbours currentNode currentCost heuristic rest op cl
    | Unvisited =>
      processNeighbours currentNode currentCost heuristic rest
        (op ++ [⟨cand + heuristic nbnode, nbnode⟩])
        (setClosed cl nbnode (PathFrom currentNode cand))

/-- astarLoop mirrors the while-let loop of the astar function in
astar.rs, with a fuel bound on the number of pops; none means the fuel
ran out before the loop finished.  On completion it returns the result
together with the final closed list, which the Rust caller owns. -/
def astarLoop (isGoal : Nat → Bool) (heuristic : Nat → Nat)
    (neighbours : Nat → List (Nat × Nat)) :
    Nat → List OpenItem → Closed → Option (Except AStarError Nat × Closed)
  | 0, _, _ => none
  | fuel + 1, op, cl =>
    match popMin op with
    | none => some (Except.error AStarError.PathNotFound, cl)
    | some (item, rest) =>
      if isGoal item.node then
        some (Except.ok item.node, cl)
      else
        match currentCostOf (cl item.node) with
        | none => some (Except.error AStarError.OpenItemNotInClosedList, cl)
        | some c =>
          match processNeighbours item.node c heuristic (neighbours item.node) rest cl with
          | (_, cl2, some e) => some (Except.error e, cl2)
          | (op2, cl2, none) => astarLoop isGoal heuristic neighbours fuel op2 cl2

/-- unwindFuel mirrors the while-let loop of ClosedList::unwind in
astar.rs: starting from the accumulated path, follow PathFrom links and
append each predecessor; fuel bounds the number of followed links and
none means the walk did not terminate within the fuel. -/
def unwindFuel (cl : Closed) : Nat → Nat → List Nat → Option (List Nat)
  | fuel, r, path =>
    match cl r, fuel with
    | PathFrom last _, f + 1 => unwindFuel cl f last (path ++ [last])
    | PathFrom _ _, 0 => none
    | _, _ => some path

/-- unwind mirrors ClosedList::unwind: accumulate from the queried node
and reverse at the end. -/
def unwind (cl : Closed) (fuel : Nat) (node : Nat) : Option (List Nat) :=
  (unwindFuel cl fuel node [node]).map List.reverse

/-- seedClosed models the caller-side seeding of the closed list with a
single StartingPoint of cost zero, as done in main.rs. -/
def seedClosed (start : Nat) : Closed :=
  setClosed (fun _ => Unvisited) start (StartingPoint 0)

/-- seedOpen models the caller-side seeding of the open list with one
item for the start node whose priority is cost zero plus the heuristic
estimate of the start node. -/
def seedOpen (heuristic : Nat → Nat) (start : Nat) : List OpenItem :=
  [⟨heuristic start, start⟩]

/-- IsPath nbf n p c states that p is a path in the graph given by the
neighbour function nbf, beginning at n, whose consecutive nodes are
joined by edges of nbf with total edge cost c. -/
inductive IsPath (nbf : Nat → List (Nat × Nat)) : Nat → List Nat → Nat → Prop
  | single (n : Nat) : IsPath nbf n [n] 0
  | cons {n m c k : Nat} {p : List Nat} :
      (c, m) ∈ nbf n → IsPath nbf m p k → IsPath nbf n (n :: p) (c + k)

/-- Admissible states that the heuristic never overestimates the cost of
any path from a node to a goal node. -/
def Admissible (nbf : Nat → List (Nat × Nat)) (isGoal : Nat → Bool) (h : Nat → Nat) : Prop :=
  ∀ n p c g, IsPath nbf n p c → p.getLast? = some g → isGoal g = true → h n ≤ c

/-- Consistent states the triangle-like inequality of a consistent
heuristic across every edge of the graph. -/
def Consistent (nbf : Nat → List (Nat × Nat)) (h : Nat → Nat) : Prop :=
  ∀ u ec v, (ec, v) ∈ nbf u → h u ≤ ec + h v

/-- NUM_IN_PLACE_JUMPS mirrors the constant of the same name in
evemap.rs: the inline-array capacity of the Neighbours type. -/
def NUM_IN_PLACE_JUMPS : Nat := 3

/-- Neighbours mirrors the enum of the same name in evemap.rs: either a
fixed-capacity inline array of optional node indices (modelled as a list
of options of length NUM_IN_PLACE_JUMPS) or a heap-grown vector. -/
inductive Neighbours where
  | InPlace : List (Option Nat) → Neighbours
  | Vec : List Nat → Neighbours
deriving DecidableEq, Repr

/-- neighboursFromIter mirrors the FromIterator implementation for
Neighbours in evemap.rs: collect the values; if more than
NUM_IN_PLACE_JUMPS use the Vec variant, otherwise fill a default
(all-none) inline array slot by slot. -/
def neighboursFromIter (values : List Nat) : Neighbours :=
  if values.length > NUM_IN_PLACE_JUMPS then
    Neighbours.Vec values
  else
    Neighbours.InPlace
      (values.map some ++ List.replicate (NUM_IN_PLACE_JUMPS - values.length) none)

/-- getNeighbours mirrors SolarSystemMapItem::get_neighbours in
evemap.rs: iterate the Vec variant directly, filter the some entries of
the inline array, and yield nothing when the once-cell is unset. -/
def getNeighbours : Option Neighbours → List Nat
  | some (Neighbours.Vec v) => v
  | some (Neighbours.InPlace a) => a.filterMap id
  | none => []

/-- Rooted states that the PathFrom back-links from a node reach a
StartingPoint entry in finitely many steps. -/
inductive Rooted (cl : Closed) : Nat → Prop
  | sp {n c} : cl n = StartingPoint c → Rooted cl n
  | link {n m c} : cl n = PathFrom m c → Rooted cl m → Rooted cl n

/-- ChainFrom cl r n p states that p is the full back-link chain of the
closed list cl from the root r (a node with no PathFrom entry) to the
node n, listed from root to n. -/
inductive ChainFrom (cl : Closed) : Nat → Nat → List Nat → Prop
  | root {r} : (∀ m c, cl r ≠ PathFrom m c) → ChainFrom cl r r [r]
  | step {r m n c p} : ChainFrom cl r m p → cl n = PathFrom m c →
      ChainFrom cl r n (p ++ [n])

/-- backStep reads the predecessor recorded in a PathFrom entry. -/
def backStep (cl : Closed) (n : Nat) : Option Nat :=
  match cl n with
  | PathFrom m _ => some m
  | _ => none

/-- iterBack iterates backStep a given number of times. -/
def iterBack (cl : Closed) : Nat → Nat → Option Nat
  | 0, n => some n
  | k + 1, n => (backStep cl n).bind (iterBack cl k)

/-- unvisitedCount counts the Unvisited entries of the closed list among
the node indices below the capacity N. -/
def unvisitedCount (cl : Closed) (N : Nat) : Nat :=
  ((List.range N).filter (fun n => decide (cl n = Unvisited))).length

/-- Inv collects the state invariants of the astar loop relative to the
graph nbf, the heuristic h and the seeded start node. -/
structure Inv (nbf : Nat → List (Nat × Nat)) (h : Nat → Nat) (start : Nat)
    (op : List OpenItem) (cl : Closed) : Prop where
  startLabel : cl start = StartingPoint 0
  startUnique : ∀ n c, cl n = StartingPoint c → n = start ∧ c = 0
  linkLabel : ∀ n m c, cl n = PathFrom m c →
    ∃ cm, currentCostOf (cl m) = some cm ∧ ∃ ec, (ec, n) ∈ nbf m ∧ c = ec + cm
  rooted : ∀ n, cl n ≠ Unvisited → Rooted cl n
  openLabeled : ∀ it ∈ op, ∃ c, currentCostOf (cl it.node) = some c ∧
    it.heuristic = c + h it.node
  expanded : ∀ u cu, currentCostOf (cl u) = some cu → (∀ it ∈ op, it.node ≠ u) →
    ∀ ec v, (ec, v) ∈ nbf u → ∃ cv, currentCostOf (cl v) = some cv ∧ cv ≤ ec + cu

/-- MidInv collects the invariants holding in the middle of one
expansion of the node u (of accumulated cost cu) while the suffix l of
its neighbour list is still unprocessed: the closed-list invariants of
Inv, the open-list invariants for the current open list, the expansion
property for every fully expanded node other than u, and the
already-processed prefix property for u itself. -/
structure MidInv (nbf : Nat → List (Nat × Nat)) (h : Nat → Nat) (start u cu : Nat)
    (l : List (Nat × Nat)) (op : List OpenItem) (cl : Closed) : Prop where
  startLabel : cl start = StartingPoint 0
  startUnique : ∀ n c, cl n = StartingPoint c → n = start ∧ c = 0
  linkLabel : ∀ n m c, cl n = PathFrom m c →
    ∃ cm, currentCostOf (cl m) = some cm ∧ ∃ ec, (ec, n) ∈ nbf m ∧ c = ec + cm
  rooted : ∀ n, cl n ≠ Unvisited → Rooted cl n
  openLabeled : ∀ it ∈ op, ∃ c, currentCostOf (cl it.node) = some c ∧
    it.heuristic = c + h it.node
  expandedExcept : ∀ w cw, currentCostOf (cl w) = some cw →
    (∀ it ∈ op, it.node ≠ w) → w ≠ u → ∀ ec v, (ec, v) ∈ nbf w →
    ∃ cv, currentCostOf (cl v) = some cv ∧ cv ≤ ec + cw
  uLabel : currentCostOf (cl u) = some cu
  todo : ∀ ec v, (ec, v) ∈ nbf u → (ec, v) ∈ l ∨
    ∃ cv, currentCostOf (cl v) = some cv ∧ cv ≤ ec + cu
  sub : ∀ q ∈ l, q ∈ nbf u

/-- nbABC is the example graph of the specification: nodes A=0, B=1,
C=2 with undirected edges A-B of cost 1, B-C of cost 1 and A-C of
cost 5. -/
def nbABC : Nat → List (Nat × Nat)
  | 0 => [(1, 1), (5, 2)]
  | 1 => [(1, 0), (1, 2)]
  | 2 => [(5, 0), (1, 1)]
  | _ => []

/-- abcRun is the astar run on the example graph seeded at A with the
zero heuristic and goal C. -/
def abcRun : Option (Except AStarError Nat × Closed) :=
  astarLoop (fun n => n == 2) (fun _ => 0) nbABC 10
    (seedOpen (fun _ => 0) 0) (seedClosed 0)

/-- nbCons is a graph with non-negative edge costs on which the zero
heuristic (which is consistent) still triggers the FoundHigherCostPath
error: edges 0 to 1 of cost 10, 0 to 2 of cost 1, 2 to 1 of cost 2. -/
def nbCons : Nat → List (Nat × Nat)
  | 0 => [(10, 1), (1, 2)]
  | 2 => [(2, 1)]
  | _ => []

/-- consRun is the astar run on nbCons seeded at 0 with the zero
heuristic and an unsatisfiable goal predicate. -/
def consRun : Option (Except AStarError Nat × Closed) :=
  astarLoop (fun _ => false) (fun _ => 0) nbCons 5
    (seedOpen (fun _ => 0) 0) (seedClosed 0)

/-- nbTwo is the two-node graph with a single edge from 0 to 1 of
cost 1. -/
def nbTwo : Nat → List (Nat × Nat)
  | 0 => [(1, 1)]
  | _ => []

/-- clChain is a small concrete closed list whose back-links form the
chain 1 to 0 with 0 a starting point. -/
def clChain : Closed :=
  fun n => if n = 0 then StartingPoint 0 else if n = 1 then PathFrom 0 1 else Unvisited

/-! Theorems. -/

/-- Claim C2, counterexample: on the example graph A-B cost 1, B-C
cost 1, A-C cost 5, seeded at A with the zero heuristic and goal C,
astar does not return Ok(C): the run ends in the FoundHigherCostPath
error, because A's expansion labels C at cost 5 and B's expansion then
finds the strictly cheaper candidate cost 2 to C. -/
theorem c2_counterexample :
    abcRun.map Prod.fst = some (Except.error AStarError.FoundHigherCostPath) ∧
    ¬ ∃ cl, abcRun = some (Except.ok 2, cl) := by
  refine ⟨rfl, ?_⟩
  rintro ⟨cl, h⟩
  have h2 : abcRun.map Prod.fst = some (Except.ok 2) := by rw [h]; rfl
  rw [show abcRun.map Prod.fst = some (Except.error AStarError.FoundHigherCostPath)
    from rfl] at h2
  simp at h2

/-- Claim C2, amended: on the four-node example graph with undirected
edges A-B of cost 1, B-C of cost 1 and A-C of cost 5, with A seeded as
StartingPoint(0), goal predicate matching C and the zero heuristic,
astar returns Err(FoundHigherCostPath) rather than Ok(C): at the point
of failure the closed list records B as reached from A at cost 1 and C
as reached from A at cost 5, and the strictly cheaper candidate cost 2
to C discovered from B triggers the error. -/
theorem c2_amended :
    ∃ cl, abcRun = some (Except.error AStarError.FoundHigherCostPath, cl) ∧
      cl 0 = StartingPoint 0 ∧ cl 1 = PathFrom 0 1 ∧ cl 2 = PathFrom 0 5 :=
  ⟨_, rfl, rfl, rfl, rfl⟩

/-- Claim C3, counterexample: the zero heuristic is consistent and the
graph nbCons has non-negative edge costs, yet the run returns the
FoundHigherCostPath error: node 1 is first labelled at cost 10 from
node 0 and the expansion of node 2 then finds the strictly cheaper
candidate cost 3. -/
theorem c3_counterexample :
    Consistent nbCons (fun _ => 0) ∧
    consRun.map Prod.fst = some (Except.error AStarError.FoundHigherCostPath) :=
  ⟨fun _ _ _ _ => Nat.zero_le _, rfl⟩

/-- Claim C3, amended: even for a graph with non-negative edge costs
searched with a consistent heuristic from a single seeded
StartingPoint, astar can return the FoundHigherCostPath error: the
error branch is reachable because a node is permanently labelled the
first time it is generated, not the first time it is expanded. -/
theorem c3_amended :
    ∃ (nbf : Nat → List (Nat × Nat)) (h : Nat → Nat) (isGoal : Nat → Bool)
      (start fuel : Nat) (cl : Closed),
      Consistent nbf h ∧
      astarLoop isGoal h nbf fuel (seedOpen h start) (seedClosed start) =
        some (Except.error AStarError.FoundHigherCostPath, cl) :=
  ⟨nbCons, fun _ => 0, fun _ => false, 0, 5, _, fun _ _ _ _ => Nat.zero_le _, rfl⟩

/-- Claim C7, counterexample: two open items with equal priority 5 but
different nodes are not equal under the PartialEq implementation, so
equality does not hold exactly when the priorities are equal. -/
theorem c7_counterexample :
    ¬ (openItemEq ⟨5, 0⟩ ⟨5, 1⟩ = true ↔
        (OpenItem.mk 5 0).heuristic = (OpenItem.mk 5 1).heuristic) := by
  decide

/-- Claim C7, amended: the PartialEq implementation for OpenItem
compares only the node fields, not the priorities; it is the comparison
function used by the heap ordering that treats two items as equal
exactly when their priorities are equal. -/
theorem c7_amended (a b : OpenItem) :
    (openItemEq a b = true ↔ a.node = b.node) ∧
    (openItemCmp a b = Ordering.eq ↔ a.heuristic = b.heuristic) := by
  constructor
  · simp [openItemEq]
  · unfold openItemCmp
    cases h : compare a.heuristic b.heuristic <;>
      simp [Ordering.swap] <;>
      [exact fun he => absurd (Nat.compare_eq_eq.mpr he) (by rw [h]; simp);
       exact Nat.compare_eq_eq.mp h;
       exact fun he => absurd (Nat.compare_eq_eq.mpr he) (by rw [h]; simp)]

/-- Witness for C7 at concrete items: equal nodes make the items equal,
and equal priorities make the heap comparison return eq. -/
theorem c7_amended_witness :
    openItemEq ⟨5, 0⟩ ⟨7, 0⟩ = true ∧
    openItemCmp ⟨5, 1⟩ ⟨5, 2⟩ = Ordering.eq :=
  ⟨(c7_amended ⟨5, 0⟩ ⟨7, 0⟩).1.mpr rfl, (c7_amended ⟨5, 1⟩ ⟨5, 2⟩).2.mpr rfl⟩

/-- Helper: filtering the some entries out of a replicated none list
yields the empty list. -/
lemma filterMap_id_replicate_none (k : Nat) :
    (List.replicate k (none : Option Nat)).filterMap id = [] := by
  induction k with
  | zero => rfl
  | succ k ih => simp [List.replicate_succ, ih]

/-- Claim C9: collecting a finite sequence of indices into a Neighbours
value yields the inline-array variant exactly when the sequence has
length at most NUM_IN_PLACE_JUMPS and the Vec variant otherwise, and in
both cases the neighbour query yields exactly the original indices in
insertion order. -/
theorem c9_neighbours (values : List Nat) :
    (values.length ≤ NUM_IN_PLACE_JUMPS →
      ∃ a, neighboursFromIter values = Neighbours.InPlace a) ∧
    (NUM_IN_PLACE_JUMPS < values.length →
      neighboursFromIter values = Neighbours.Vec values) ∧
    getNeighbours (some (neighboursFromIter values)) = values := by
  refine ⟨fun hle => ?_, fun hgt => ?_, ?_⟩
  · exact ⟨_, by rw [neighboursFromIter, if_neg (by omega)]⟩
  · rw [neighboursFromIter, if_pos hgt]
  · by_cases hc : values.length > NUM_IN_PLACE_JUMPS
    · rw [neighboursFromIter, if_pos hc]; rfl
    · rw [neighboursFromIter, if_neg hc]
      show (values.map some ++
        List.replicate (NUM_IN_PLACE_JUMPS - values.length) none).filterMap id = values
      rw [List.filterMap_append, filterMap_id_replicate_none, List.append_nil,
        List.filterMap_map]
      exact List.filterMap_some values

/-- Witness for C9 at the concrete inputs with two and four indices. -/
theorem c9_neighbours_witness :
    (∃ a, neighboursFromIter [7, 8] = Neighbours.InPlace a) ∧
    neighboursFromIter [1, 2, 3, 4] = Neighbours.Vec [1, 2, 3, 4] :=
  ⟨(c9_neighbours [7, 8]).1 (by decide), (c9_neighbours [1, 2, 3, 4]).2.1 (by decide)⟩

/-- Helper: popMin returns none exactly on the empty list. -/
lemma popMin_eq_none (l : List OpenItem) : popMin l = none ↔ l = [] := by
  cases l with
  | nil => simp [popMin]
  | cons x xs =>
    simp only [popMin]
    cases hp : popMin xs with
    | none => simp
    | some p =>
      obtain ⟨y, ys⟩ := p
      by_cases hxy : x.heuristic ≤ y.heuristic <;> simp [hxy]

/-- Helper: the extracted item and remainder of popMin form a
permutation of the input list. -/
lemma popMin_perm {l : List OpenItem} {it : OpenItem} {rest : List OpenItem}
    (h : popMin l = some (it, rest)) : l.Perm (it :: rest) := by
  induction l generalizing it rest with
  | nil => simp [popMin] at h
  | cons x xs ih =>
    simp only [popMin] at h
    cases hp : popMin xs with
    | none =>
      rw [hp] at h
      simp only [Option.some.injEq, Prod.mk.injEq] at h
      obtain ⟨rfl, rfl⟩ := h
      rw [(popMin_eq_none xs).mp hp]
    | some p =>
      obtain ⟨y, ys⟩ := p
      rw [hp] at h
      dsimp only at h
      by_cases hxy : x.heuristic ≤ y.heuristic
      · rw [if_pos hxy] at h
        simp only [Option.some.injEq, Prod.mk.injEq] at h
        obtain ⟨rfl, rfl⟩ := h
        exact List.Perm.refl _
      · rw [if_neg hxy] at h
        simp only [Option.some.injEq, Prod.mk.injEq] at h
        obtain ⟨rfl, rfl⟩ := h
        exact ((ih hp).cons x).trans (List.Perm.swap y x ys)

/-- Helper: the item extracted by popMin has minimal heuristic among the
items of the input list. -/
lemma popMin_le {l : List OpenItem} {it : OpenItem} {rest : List OpenItem}
    (h : popMin l = some (it, rest)) : ∀ x ∈ l, it.heuristic ≤ x.heuristic := by
  induction l generalizing it rest with
  | nil => simp [popMin] at h
  | cons a xs ih =>
    simp only [popMin] at h
    cases hp : popMin xs with
    | none =>
      rw [hp] at h
      simp only [Option.some.injEq, Prod.mk.injEq] at h
      obtain ⟨rfl, rfl⟩ := h
      have hxs := (popMin_eq_none xs).mp hp
      subst hxs
      intro x hx
      rcases List.mem_singleton.mp hx with rfl
      exact le_refl _
    | some p =>
      obtain ⟨y, ys⟩ := p
      rw [hp] at h
      dsimp only at h
      by_cases hxy : a.heuristic ≤ y.heuristic
      · rw [if_pos hxy] at h
        simp only [Option.some.injEq, Prod.mk.injEq] at h
        obtain ⟨rfl, rfl⟩ := h
        intro x hx
        rcases List.mem_cons.mp hx with rfl | hx'
        · exact le_refl _
        · exact le_trans hxy (ih hp x hx')
      · rw [if_neg hxy] at h
        simp only [Option.some.injEq, Prod.mk.injEq] at h
        obtain ⟨rfl, rfl⟩ := h
        intro x hx
        rcases List.mem_cons.mp hx with rfl | hx'
        · exact le_of_lt (lt_of_not_le hxy)
        · exact ih hp x hx'

/-- Claim C5: popMin returns none exactly when no pushed item remains,
and otherwise extracts a member whose priority (the heuristic field) is
less than or equal to the priority of every item of the list, the
remainder being the other items. -/
theorem c5_popMin (l : List OpenItem) :
    (popMin l = none ↔ l = []) ∧
    ∀ it rest, popMin l = some (it, rest) →
      it ∈ l ∧ l.Perm (it :: rest) ∧ ∀ x ∈ l, it.heuristic ≤ x.heuristic :=
  ⟨popMin_eq_none l, fun it rest h =>
    ⟨(popMin_perm h).mem_iff.mpr (List.mem_cons_self it rest),
     popMin_perm h, popMin_le h⟩⟩

/-- Witness for C5 at a concrete two-item list. -/
theorem c5_popMin_witness :
    (⟨1, 1⟩ : OpenItem) ∈ [(⟨2, 0⟩ : OpenItem), ⟨1, 1⟩] ∧
    ([(⟨2, 0⟩ : OpenItem), ⟨1, 1⟩]).Perm ((⟨1, 1⟩ : OpenItem) :: [⟨2, 0⟩]) ∧
    ∀ x ∈ [(⟨2, 0⟩ : OpenItem), ⟨1, 1⟩], (⟨1, 1⟩ : OpenItem).heuristic ≤ x.heuristic :=
  (c5_popMin _).2 ⟨1, 1⟩ [⟨2, 0⟩] rfl

/-- Claim C4: for each (edgeCost, neighbour) pair examined with
candidate = edgeCost + currentCost, a PathFrom neighbour whose existing
cost is at most the candidate, and a StartingPoint neighbour, are
skipped with the open and closed lists unchanged; a PathFrom neighbour
whose existing cost strictly exceeds the candidate stops the expansion
with FoundHigherCostPath, which the loop returns as its result; an
Unvisited neighbour is set to PathFrom(currentNode, candidate) and an
item of priority candidate + heuristic(neighbour) is pushed. -/
theorem c4_neighbour_step (u cu : Nat) (h : Nat → Nat) (ec v : Nat)
    (rest : List (Nat × Nat)) (op : List OpenItem) (cl : Closed) :
    (∀ m ex, cl v = PathFrom m ex → ex ≤ ec + cu →
      processNeighbours u cu h ((ec, v) :: rest) op cl =
        processNeighbours u cu h rest op cl) ∧
    (∀ c0, cl v = StartingPoint c0 →
      processNeighbours u cu h ((ec, v) :: rest) op cl =
        processNeighbours u cu h rest op cl) ∧
    (∀ m ex, cl v = PathFrom m ex → ec + cu < ex →
      processNeighbours u cu h ((ec, v) :: rest) op cl =
        (op, cl, some AStarError.FoundHigherCostPath)) ∧
    (cl v = Unvisited →
      processNeighbours u cu h ((ec, v) :: rest) op cl =
        processNeighbours u cu h rest (op ++ [⟨ec + cu + h v, v⟩])
          (setClosed cl v (PathFrom u (ec + cu)))) ∧
    (∀ (isGoalF : Nat → Bool) (nbF : Nat → List (Nat × Nat))
        (fuel : Nat) (op0 : List OpenItem) (rest0 : List OpenItem)
        (pri : Nat) (op2 : List OpenItem) (cl2 : Closed) (e : AStarError),
      popMin op0 = some (⟨pri, u⟩, rest0) → isGoalF u = false →
      currentCostOf (cl u) = some cu →
      processNeighbours u cu h (nbF u) rest0 cl = (op2, cl2, some e) →
      astarLoop isGoalF h nbF (fuel + 1) op0 cl = some (Except.error e, cl2)) := by
  refine ⟨?_, ?_, ?_, ?_, ?_⟩
  · intro m ex hv hle
    simp only [processNeighbours]
    rw [hv]
    dsimp only
    rw [if_pos hle]
  · intro c0 hv
    simp only [processNeighbours]
    rw [hv]
  · intro m ex hv hgt
    simp only [processNeighbours]
    rw [hv]
    dsimp only
    rw [if_neg (Nat.not_le_of_lt hgt)]
  · intro hv
    simp only [processNeighbours]
    rw [hv]
  · intro isGoalF nbF fuel op0 rest0 pri op2 cl2 e hpop hgf hcc hpn
    simp only [astarLoop]
    rw [hpop]
    dsimp only
    rw [hgf]
    simp only [Bool.false_eq_true, if_false]
    rw [hcc]
    dsimp only
    rw [hpn]

/-- Witness for C4 at concrete inputs exercising every case: skip of an
equally-reached PathFrom neighbour, skip of a StartingPoint neighbour,
the FoundHigherCostPath stop and its propagation by the loop, and the
labelling plus push of an Unvisited neighbour. -/
theorem c4_neighbour_step_witness :
    (processNeighbours 5 0 (fun _ => 0) [(1, 1)] [] clChain =
      processNeighbours 5 0 (fun _ => 0) [] [] clChain) ∧
    (processNeighbours 5 0 (fun _ => 0) [(1, 0)] [] clChain =
      processNeighbours 5 0 (fun _ => 0) [] [] clChain) ∧
    (processNeighbours 5 0 (fun _ => 0) [(0, 1)] [] clChain =
      ([], clChain, some AStarError.FoundHigherCostPath)) ∧
    (processNeighbours 5 0 (fun _ => 0) [(1, 2)] [] clChain =
      processNeighbours 5 0 (fun _ => 0) [] ([] ++ [⟨1 + 0 + 0, 2⟩])
        (setClosed clChain 2 (PathFrom 5 (1 + 0)))) ∧
    (astarLoop (fun _ => false) (fun _ => 0) (fun _ => [(0, 1)]) 1
        [⟨3, 0⟩] clChain =
      some (Except.error AStarError.FoundHigherCostPath, clChain)) :=
  ⟨(c4_neighbour_step 5 0 (fun _ => 0) 1 1 [] [] clChain).1 0 1 rfl (by decide),
   (c4_neighbour_step 5 0 (fun _ => 0) 1 0 [] [] clChain).2.1 0 rfl,
   (c4_neighbour_step 5 0 (fun _ => 0) 0 1 [] [] clChain).2.2.1 0 1 rfl (by decide),
   (c4_neighbour_step 5 0 (fun _ => 0) 1 2 [] [] clChain).2.2.2.1 rfl,
   (c4_neighbour_step 0 0 (fun _ => 0) 0 0 [] [] clChain).2.2.2.2
     (fun _ => false) (fun _ => [(0, 1)]) 0 [⟨3, 0⟩] [] 3 [] clChain
     AStarError.FoundHigherCostPath rfl rfl rfl rfl⟩

/-- Helper: unwindFuel halts immediately at a node without a PathFrom
entry, returning the accumulated path. -/
lemma unwindFuel_stop {cl : Closed} {r : Nat} (f : Nat) (acc : List Nat)
    (hr : ∀ m c, cl r ≠ PathFrom m c) : unwindFuel cl f r acc = some acc := by
  rw [unwindFuel.eq_def]
  dsimp only
  cases hcl : cl r with
  | Unvisited => cases f <;> rfl
  | StartingPoint c => cases f <;> rfl
  | PathFrom m c => exact absurd hcl (hr m c)

/-- Helper: unwindFuel follows one PathFrom link, consuming one unit of
fuel. -/
lemma unwindFuel_link {cl : Closed} {r m c : Nat} (f : Nat) (acc : List Nat)
    (hr : cl r = PathFrom m c) :
    unwindFuel cl (f + 1) r acc = unwindFuel cl f m (acc ++ [m]) := by
  rw [unwindFuel.eq_def]
  dsimp only
  rw [hr]

/-- Helper: unwindFuel runs out of fuel at a PathFrom entry. -/
lemma unwindFuel_link_zero {cl : Closed} {r m c : Nat} (acc : List Nat)
    (hr : cl r = PathFrom m c) : unwindFuel cl 0 r acc = none := by
  rw [unwindFuel.eq_def]
  dsimp only
  rw [hr]

/-- Helper: the accumulator of unwindFuel is prepended to the walked
chain. -/
lemma unwindFuel_append (cl : Closed) :
    ∀ (f : Nat) (r : Nat) (acc : List Nat),
      unwindFuel cl f r acc = (unwindFuel cl f r []).map (acc ++ ·) := by
  intro f
  induction f with
  | zero =>
    intro r acc
    cases hr : cl r with
    | PathFrom m c => rw [unwindFuel_link_zero acc hr, unwindFuel_link_zero [] hr]; rfl
    | Unvisited =>
      rw [unwindFuel_stop 0 acc (by rw [hr]; intro _ _ hc; cases hc),
        unwindFuel_stop 0 [] (by rw [hr]; intro _ _ hc; cases hc)]
      simp
    | StartingPoint c =>
      rw [unwindFuel_stop 0 acc (by rw [hr]; intro _ _ hc; cases hc),
        unwindFuel_stop 0 [] (by rw [hr]; intro _ _ hc; cases hc)]
      simp
  | succ f ih =>
    intro r acc
    cases hr : cl r with
    | PathFrom m c =>
      rw [unwindFuel_link f acc hr, unwindFuel_link f [] hr, ih m (acc ++ [m]),
        ih m ([] ++ [m])]
      simp [Option.map_map, Function.comp_def]
    | Unvisited =>
      rw [unwindFuel_stop (f + 1) acc (by rw [hr]; intro _ _ hc; cases hc),
        unwindFuel_stop (f + 1) [] (by rw [hr]; intro _ _ hc; cases hc)]
      simp
    | StartingPoint c =>
      rw [unwindFuel_stop (f + 1) acc (by rw [hr]; intro _ _ hc; cases hc),
        unwindFuel_stop (f + 1) [] (by rw [hr]; intro _ _ hc; cases hc)]
      simp

/-- Helper: a back-link chain is never the empty list. -/
lemma chainFrom_ne_nil {cl : Closed} {r n : Nat} {p : List Nat}
    (h : ChainFrom cl r n p) : p ≠ [] := by
  induction h with
  | root _ => simp
  | step _ _ _ => simp

/-- Helper: a back-link chain begins with its root. -/
lemma chainFrom_head {cl : Closed} {r n : Nat} {p : List Nat}
    (h : ChainFrom cl r n p) : p.head? = some r := by
  induction h with
  | root _ => rfl
  | step _ _ ih => simp [List.head?_append, ih]

/-- Helper: a back-link chain ends with the queried node. -/
lemma chainFrom_last {cl : Closed} {r n : Nat} {p : List Nat}
    (h : ChainFrom cl r n p) : p.getLast? = some n := by
  induction h with
  | root _ => rfl
  | step _ _ _ => exact List.getLast?_concat _

/-- Helper: the root of a back-link chain has no PathFrom entry. -/
lemma chainFrom_root_state {cl : Closed} {r n : Nat} {p : List Nat}
    (h : ChainFrom cl r n p) : ∀ m c, cl r ≠ PathFrom m c := by
  induction h with
  | root hr => exact hr
  | step _ _ ih => exact ih

/-- Helper: iterated back-stepping splits over addition. -/
lemma iterBack_add (cl : Closed) (a b n : Nat) :
    iterBack cl (a + b) n = (iterBack cl a n).bind (iterBack cl b) := by
  induction a generalizing n with
  | zero => simp [iterBack]
  | succ a ih =>
    have : a + 1 + b = (a + b) + 1 := by omega
    rw [this]
    simp only [iterBack]
    rw [Option.bind_assoc]
    cases backStep cl n with
    | none => simp
    | some m => simp [ih m]

/-- Helper: back-stepping from a rootless node yields none. -/
lemma iterBack_root {cl : Closed} {r : Nat}
    (hr : ∀ m c, cl r ≠ PathFrom m c) (k : Nat) :
    iterBack cl (k + 1) r = none := by
  have hb : backStep cl r = none := by
    unfold backStep
    cases hcl : cl r with
    | Unvisited => rfl
    | StartingPoint c => rfl
    | PathFrom m c => exact absurd hcl (hr m c)
  simp [iterBack, hb]

/-- Helper: element i of a back-link chain reaches the root in exactly
i back-steps. -/
lemma chainFrom_iterBack {cl : Closed} {r n : Nat} {p : List Nat}
    (h : ChainFrom cl r n p) :
    ∀ i (hi : i < p.length), iterBack cl i (p[i]) = some r := by
  induction h with
  | root _ =>
    intro i hi
    simp only [List.length_singleton] at hi
    interval_cases i
    rfl
  | @step m n c p hch hlink ih =>
    intro i hi
    rcases Nat.lt_or_ge i p.length with hlt | hge
    · rw [List.getElem_append_left hlt]
      exact ih i hlt
    · have hplen : 1 ≤ p.length := by
        have hne := chainFrom_ne_nil hch
        cases p with
        | nil => exact absurd rfl hne
        | cons a q => simp
      have hieq : i = p.length := by
        simp only [List.length_append, List.length_singleton] at hi
        omega
      subst hieq
      simp only [List.getElem_concat_length]
      obtain ⟨L, hL⟩ : ∃ L, p.length = L + 1 := ⟨p.length - 1, by omega⟩
      have hLlt : L < p.length := by omega
      have hm : p[L] = m := by
        have hlast := chainFrom_last hch
        rw [List.getLast?_eq_getElem?, show p.length - 1 = L by omega,
          List.getElem?_eq_getElem hLlt] at hlast
        exact Option.some.inj hlast
      have hstep : iterBack cl p.length n = iterBack cl L m := by
        rw [hL, Nat.add_comm L 1, iterBack_add]
        have hb : iterBack cl 1 n = some m := by
          simp [iterBack, backStep, hlink]
        rw [hb, Option.some_bind]
      rw [hstep, ← hm]
      exact ih L hLlt

/-- Helper: two back-step distances from the same node to the same root
must be equal, since the walk halts at the root. -/
lemma iterBack_unique {cl : Closed} {r x : Nat}
    (hroot : ∀ m c, cl r ≠ PathFrom m c) {i j : Nat}
    (hi : iterBack cl i x = some r) (hj : iterBack cl j x = some r) :
    i = j := by
  rcases Nat.lt_trichotomy i j with hlt | heq | hgt
  · exfalso
    have hd : j = i + ((j - i - 1) + 1) := by omega
    rw [hd, iterBack_add, hi, Option.some_bind, iterBack_root hroot] at hj
    cases hj
  · exact heq
  · exfalso
    have hd : i = j + ((i - j - 1) + 1) := by omega
    rw [hd, iterBack_add, hj, Option.some_bind, iterBack_root hroot] at hi
    cases hi

/-- Helper: a back-link chain contains no repeated node, because the
walk from a repeated node would have two distinct distances to the
root. -/
lemma chainFrom_nodup {cl : Closed} {r n : Nat} {p : List Nat}
    (h : ChainFrom cl r n p) : p.Nodup := by
  rw [List.nodup_iff_injective_getElem]
  intro a b hab
  obtain ⟨i, hi⟩ := a
  obtain ⟨j, hj⟩ := b
  simp only at hab
  have hri := chainFrom_iterBack h i hi
  have hrj := chainFrom_iterBack h j hj
  have hri2 : iterBack cl i (p[j]) = some r := by rw [← hab]; exact hri
  exact Fin.ext (iterBack_unique (chainFrom_root_state h) hri2 hrj)

/-- Helper: the unwind walk reproduces a back-link chain given enough
fuel. -/
lemma chainFrom_unwind {cl : Closed} {r n : Nat} {p : List Nat}
    (h : ChainFrom cl r n p) : ∃ k, unwind cl k n = some p := by
  induction h with
  | root hr =>
    refine ⟨0, ?_⟩
    unfold unwind
    rw [unwindFuel_stop 0 _ hr]
    rfl
  | @step m n c p hch hlink ih =>
    obtain ⟨k, hk⟩ := ih
    unfold unwind at hk
    obtain ⟨t, ht, hrev⟩ := Option.map_eq_some'.mp hk
    rw [unwindFuel_append cl k m [m]] at ht
    obtain ⟨t0, ht0, hmt⟩ := Option.map_eq_some'.mp ht
    refine ⟨k + 1, ?_⟩
    unfold unwind
    rw [unwindFuel_link k [n] hlink, unwindFuel_append cl k m ([n] ++ [m]), ht0]
    simp only [Option.map_some']
    congr 1
    have hmt2 : [m] ++ t0 = t := hmt
    rw [List.append_assoc, hmt2]
    rw [show ([n] ++ t).reverse = t.reverse ++ [n] by simp]
    rw [hrev]

/-- Claim C6: for a closed list whose PathFrom back-links from n form a
finite chain ending at a node r without a PathFrom entry, unwind(n)
returns (for sufficient fuel) exactly that chain, which begins with the
root r (the seeded start node whenever the chain ends at the unique
StartingPoint), ends with n, and contains no repeated node; in
particular a node whose state is StartingPoint unwinds to the singleton
chain. -/
theorem c6_unwind (cl : Closed) (r n : Nat) (p : List Nat)
    (hch : ChainFrom cl r n p) :
    (∃ k, unwind cl k n = some p) ∧
    p.head? = some r ∧ p.getLast? = some n ∧ p.Nodup ∧
    (∀ start, (∀ m c, cl m = StartingPoint c → m = start) →
      (∃ c, cl r = StartingPoint c) → p.head? = some start) ∧
    (∀ c, cl n = StartingPoint c → p = [n]) := by
  refine ⟨chainFrom_unwind hch, chainFrom_head hch, chainFrom_last hch,
    chainFrom_nodup hch, ?_, ?_⟩
  · rintro start huniq ⟨c, hc⟩
    rw [chainFrom_head hch, huniq r c hc]
  · intro c hc
    cases hch with
    | root _ => rfl
    | step _ hlink => rw [hc] at hlink; cases hlink

/-- Witness for C6 on the concrete closed list clChain, whose back-links
form the chain from the starting point 0 to the node 1. -/
theorem c6_unwind_witness :
    (∃ k, unwind clChain k 1 = some [0, 1]) ∧
    ([0, 1] : List Nat).head? = some 0 ∧ ([0, 1] : List Nat).getLast? = some 1 ∧
    ([0, 1] : List Nat).Nodup ∧
    (∀ start, (∀ m c, clChain m = StartingPoint c → m = start) →
      (∃ c, clChain 0 = StartingPoint c) → ([0, 1] : List Nat).head? = some start) ∧
    (∀ c, clChain 1 = StartingPoint c → ([0, 1] : List Nat) = [1]) :=
  c6_unwind clChain 0 1 [0, 1]
    (ChainFrom.step (ChainFrom.root (by intro m c hc; simp [clChain] at hc))
      (show clChain 1 = PathFrom 0 1 from rfl))

/-- Helper: labelling an Unvisited node below the capacity decreases the
Unvisited count by exactly one. -/
lemma countP_set_unvisited {cl : Closed} {v : Nat} {s : ClosedListState}
    (hcl : cl v = Unvisited) (hs : s ≠ Unvisited) :
    ∀ l : List Nat, l.Nodup → v ∈ l →
      (l.countP fun n => decide (setClosed cl v s n = Unvisited)) + 1 =
      l.countP fun n => decide (cl n = Unvisited) := by
  intro l
  induction l with
  | nil => intro _ hv; cases hv
  | cons a l ih =>
    intro hnd hv
    have hnd' := List.nodup_cons.mp hnd
    rw [List.countP_cons, List.countP_cons]
    rcases List.mem_cons.mp hv with rfl | hvl
    · have hfa : (decide (setClosed cl v s v = Unvisited)) = false := by
        simp [setClosed, hs]
      have hga : (decide (cl v = Unvisited)) = true := by simp [hcl]
      rw [hfa, hga]
      have hcong : (l.countP fun n => decide (setClosed cl v s n = Unvisited)) =
          l.countP fun n => decide (cl n = Unvisited) := by
        apply List.countP_congr
        intro x hx
        have hxv : x ≠ v := fun he => hnd'.1 (he ▸ hx)
        simp [setClosed, hxv]
      rw [hcong]
      simp
    · have hva : v ≠ a := fun he => hnd'.1 (he ▸ hvl)
      have hfa : (decide (setClosed cl v s a = Unvisited)) =
          decide (cl a = Unvisited) := by
        simp [setClosed, Ne.symm hva]
      rw [hfa]
      have := ih hnd'.2 hvl
      omega

/-- Helper: unvisitedCount decreases by one when an Unvisited node below
the capacity is labelled. -/
lemma unvisitedCount_set {cl : Closed} {v : Nat} {s : ClosedListState} {N : Nat}
    (hv : v < N) (hcl : cl v = Unvisited) (hs : s ≠ Unvisited) :
    unvisitedCount (setClosed cl v s) N + 1 = unvisitedCount cl N := by
  unfold unvisitedCount
  rw [← List.countP_eq_length_filter, ← List.countP_eq_length_filter]
  exact countP_set_unvisited hcl hs (List.range N) (List.nodup_range N)
    (List.mem_range.mpr hv)

/-- Helper: processNeighbours never increases the sum of open-list
length and Unvisited count, and every item it leaves in the open list
was already there or refers to a node below the capacity. -/
lemma processNeighbours_measure {u cu : Nat} {hF : Nat → Nat} {N : Nat} :
    ∀ (l : List (Nat × Nat)) (op : List OpenItem) (cl : Closed)
      {op2 : List OpenItem} {cl2 : Closed} {e : Option AStarError},
      processNeighbours u cu hF l op cl = (op2, cl2, e) →
      (∀ q ∈ l, q.2 < N) →
      op2.length + unvisitedCount cl2 N ≤ op.length + unvisitedCount cl N ∧
      (∀ it ∈ op2, it ∈ op ∨ it.node < N) := by
  intro l
  induction l with
  | nil =>
    intro op cl op2 cl2 e hval _
    simp only [processNeighbours, Prod.mk.injEq] at hval
    obtain ⟨rfl, rfl, rfl⟩ := hval
    exact ⟨le_refl _, fun it hmem => Or.inl hmem⟩
  | cons q l ih =>
    obtain ⟨ec, v⟩ := q
    intro op cl op2 cl2 e hval hql
    simp only [processNeighbours] at hval
    cases hclv : cl v with
    | PathFrom m ex =>
      rw [hclv] at hval
      dsimp only at hval
      by_cases hle : ex ≤ ec + cu
      · rw [if_pos hle] at hval
        exact ih op cl hval (fun q hq => hql q (List.mem_cons_of_mem _ hq))
      · rw [if_neg hle] at hval
        simp only [Prod.mk.injEq] at hval
        obtain ⟨rfl, rfl, rfl⟩ := hval
        exact ⟨le_refl _, fun it hmem => Or.inl hmem⟩
    | StartingPoint c0 =>
      rw [hclv] at hval
      exact ih op cl hval (fun q hq => hql q (List.mem_cons_of_mem _ hq))
    | Unvisited =>
      rw [hclv] at hval
      have hvN : v < N := hql (ec, v) (List.mem_cons_self _ _)
      have hcount := unvisitedCount_set (s := PathFrom u (ec + cu)) hvN hclv
        (by intro hc; cases hc)
      obtain ⟨hm, hmem⟩ := ih _ _ hval
        (fun q hq => hql q (List.mem_cons_of_mem _ hq))
      refine ⟨?_, ?_⟩
      · rw [List.length_append] at hm
        simp only [List.length_singleton] at hm
        omega
      · intro it hit
        rcases hmem it hit with hin | hlt
        · rcases List.mem_append.mp hin with hino | hinl
          · exact Or.inl hino
          · right
            rw [List.mem_singleton] at hinl
            subst hinl
            exact hvN
        · exact Or.inr hlt

/-- Helper: the astar loop finishes within fuel exceeding the open-list
length plus the count of Unvisited nodes below the capacity, provided
every open item and every neighbour stays below the capacity. -/
lemma astarLoop_terminates {isGoalF : Nat → Bool} {hF : Nat → Nat}
    {nbf : Nat → List (Nat × Nat)} {N : Nat}
    (hnb : ∀ u q, q ∈ nbf u → q.2 < N) :
    ∀ (fuel : Nat) (op : List OpenItem) (cl : Closed),
      (∀ it ∈ op, it.node < N) →
      op.length + unvisitedCount cl N < fuel →
      ∃ r, astarLoop isGoalF hF nbf fuel op cl = some r := by
  intro fuel
  induction fuel with
  | zero =>
    intro op cl _ hm
    exact absurd hm (Nat.not_lt_zero _)
  | succ f ih =>
    intro op cl hop hm
    cases hpop : popMin op with
    | none =>
      refine ⟨(Except.error AStarError.PathNotFound, cl), ?_⟩
      simp only [astarLoop]
      rw [hpop]
    | some pr =>
      obtain ⟨item, rest⟩ := pr
      have hlen : op.length = rest.length + 1 := by
        have := (popMin_perm hpop).length_eq
        simp only [List.length_cons] at this
        omega
      have hrest : ∀ x ∈ rest, x ∈ op := by
        intro x hx
        exact (popMin_perm hpop).symm.subset (List.mem_cons_of_mem _ hx)
      by_cases hg : isGoalF item.node = true
      · refine ⟨(Except.ok item.node, cl), ?_⟩
        simp only [astarLoop]
        rw [hpop]
        dsimp only
        rw [hg]
        simp
      · have hgf : isGoalF item.node = false := by
          revert hg
          cases isGoalF item.node <;> simp
        cases hcc : currentCostOf (cl item.node) with
        | none =>
          refine ⟨(Except.error AStarError.OpenItemNotInClosedList, cl), ?_⟩
          simp only [astarLoop]
          rw [hpop]
          dsimp only
          rw [hgf]
          simp only [Bool.false_eq_true, if_false]
          rw [hcc]
        | some cu =>
          rcases hval : processNeighbours item.node cu hF (nbf item.node) rest cl
            with ⟨op2, cl2, e⟩
          have hmeas := processNeighbours_measure (N := N) (nbf item.node) rest cl
            hval (fun q hq => hnb item.node q hq)
          cases e with
          | some err =>
            refine ⟨(Except.error err, cl2), ?_⟩
            simp only [astarLoop]
            rw [hpop]
            dsimp only
            rw [hgf]
            simp only [Bool.false_eq_true, if_false]
            rw [hcc]
            dsimp only
            rw [hval]
          | none =>
            have hop2 : ∀ it ∈ op2, it.node < N := by
              intro it hit
              rcases hmeas.2 it hit with hin | hlt
              · exact hop it (hrest it hin)
              · exact hlt
            have hm2 : op2.length + unvisitedCount cl2 N < f := by
              have := hmeas.1
              omega
            obtain ⟨r, hr⟩ := ih op2 cl2 hop2 hm2
            refine ⟨r, ?_⟩
            simp only [astarLoop]
            rw [hpop]
            dsimp only
            rw [hgf]
            simp only [Bool.false_eq_true, if_false]
            rw [hcc]
            dsimp only
            rw [hval]
            exact hr

/-- Claim C10: on a closed list of capacity N, with every seeded open
item and every neighbour below N, astar terminates: a node is labelled
PathFrom (with a matching push) only while Unvisited and never reverts,
so at most N pushes follow the seeding and fuel exceeding the seeded
open-list length plus the Unvisited count (at most N) always suffices
for the loop to return a result. -/
theorem c10_termination (isGoalF : Nat → Bool) (hF : Nat → Nat)
    (nbf : Nat → List (Nat × Nat)) (N fuel : Nat) (op : List OpenItem)
    (cl : Closed)
    (hop : ∀ it ∈ op, it.node < N)
    (hnb : ∀ u q, q ∈ nbf u → q.2 < N)
    (hfuel : op.length + unvisitedCount cl N < fuel) :
    ∃ r, astarLoop isGoalF hF nbf fuel op cl = some r :=
  astarLoop_terminates hnb fuel op cl hop hfuel

/-- Witness for C10 on the one-node empty graph with capacity 1 and
fuel 2. -/
theorem c10_termination_witness :
    ∃ r, astarLoop (fun _ => false) (fun _ => 0) (fun _ => []) 2
      [⟨0, 0⟩] (seedClosed 0) = some r :=
  c10_termination (fun _ => false) (fun _ => 0) (fun _ => []) 1 2
    [⟨0, 0⟩] (seedClosed 0)
    (by
      intro it hmem
      rw [List.mem_singleton] at hmem
      subst hmem
      decide)
    (by intro u q hq; cases hq)
    (by decide)

/-- Helper: setClosed reads back the written state at the written
index. -/
lemma setClosed_self (cl : Closed) (n : Nat) (s : ClosedListState) :
    setClosed cl n s n = s := by
  simp [setClosed]

/-- Helper: setClosed leaves other indices unchanged. -/
lemma setClosed_ne (cl : Closed) {m n : Nat} (s : ClosedListState)
    (h : m ≠ n) : setClosed cl n s m = cl m := by
  simp [setClosed, h]

/-- Helper: a path is never the empty list. -/
lemma isPath_ne_nil {nbf : Nat → List (Nat × Nat)} {n : Nat} {p : List Nat}
    {c : Nat} (h : IsPath nbf n p c) : p ≠ [] := by
  cases h <;> simp

/-- Helper: dropping the head of a list with a nonempty tail keeps the
last element. -/
lemma getLast?_cons_ne_nil {α : Type} {p : List α} (n : α) (hp : p ≠ []) :
    (n :: p).getLast? = p.getLast? := by
  cases p with
  | nil => exact absurd rfl hp
  | cons a q => exact List.getLast?_cons_cons

/-- Helper: a path extends across one further edge, at the cost of that
edge. -/
lemma isPath_snoc {nbf : Nat → List (Nat × Nat)} {s : Nat} {p : List Nat}
    {c : Nat} (h : IsPath nbf s p c) :
    ∀ {m ec v : Nat}, p.getLast? = some m → (ec, v) ∈ nbf m →
      IsPath nbf s (p ++ [v]) (c + ec) := by
  induction h with
  | single n =>
    intro m ec v hlast hedge
    have hm : m = n := by
      simp only [List.getLast?_singleton, Option.some.injEq] at hlast
      exact hlast.symm
    subst hm
    have h2 := IsPath.cons hedge (IsPath.single v)
    simpa using h2
  | @cons n m0 c0 k p hedge0 hpath ih =>
    intro m ec v hlast hedge
    rw [getLast?_cons_ne_nil n (isPath_ne_nil hpath)] at hlast
    have h2 := IsPath.cons hedge0 (ih hlast hedge)
    simpa [Nat.add_assoc] using h2

/-- Helper: labelling an Unvisited node preserves rootedness of the
other nodes. -/
lemma rooted_set {cl : Closed} {v : Nat} {s : ClosedListState}
    (hv : cl v = Unvisited) {n : Nat} (h : Rooted cl n) :
    Rooted (setClosed cl v s) n := by
  induction h with
  | @sp n c hsp =>
    have hnv : n ≠ v := by
      intro he
      rw [he, hv] at hsp
      cases hsp
    exact Rooted.sp (by rw [setClosed_ne cl _ hnv]; exact hsp)
  | @link n m c hlink _ ih =>
    have hnv : n ≠ v := by
      intro he
      rw [he, hv] at hlink
      cases hlink
    exact Rooted.link (by rw [setClosed_ne cl _ hnv]; exact hlink) ih

/-- Helper: the only error processNeighbours itself raises is
FoundHigherCostPath. -/
lemma processNeighbours_error {u cu : Nat} {hF : Nat → Nat} :
    ∀ (l : List (Nat × Nat)) (op : List OpenItem) (cl : Closed)
      {op2 : List OpenItem} {cl2 : Closed} {e : AStarError},
      processNeighbours u cu hF l op cl = (op2, cl2, some e) →
      e = AStarError.FoundHigherCostPath := by
  intro l
  induction l with
  | nil =>
    intro op cl op2 cl2 e hval
    simp only [processNeighbours, Prod.mk.injEq] at hval
    exact absurd hval.2.2 (by simp)
  | cons q l ih =>
    obtain ⟨ec, v⟩ := q
    intro op cl op2 cl2 e hval
    simp only [processNeighbours] at hval
    cases hclv : cl v with
    | PathFrom m ex =>
      rw [hclv] at hval
      dsimp only at hval
      by_cases hle : ex ≤ ec + cu
      · rw [if_pos hle] at hval
        exact ih op cl hval
      · rw [if_neg hle] at hval
        simp only [Prod.mk.injEq, Option.some.injEq] at hval
        exact hval.2.2.symm
    | StartingPoint c0 =>
      rw [hclv] at hval
      exact ih op cl hval
    | Unvisited =>
      rw [hclv] at hval
      exact ih _ _ hval

/-- Helper: processing the remaining neighbour list of the node u under
the mid-expansion invariant yields, on error-free completion, states
satisfying the full loop invariant. -/
lemma processNeighbours_inv {nbf : Nat → List (Nat × Nat)} {hF : Nat → Nat}
    {start u cu : Nat} :
    ∀ (l : List (Nat × Nat)) (op : List OpenItem) (cl : Closed)
      {op2 : List OpenItem} {cl2 : Closed} {e : Option AStarError},
      processNeighbours u cu hF l op cl = (op2, cl2, e) →
      MidInv nbf hF start u cu l op cl →
      e = none → Inv nbf hF start op2 cl2 := by
  intro l
  induction l with
  | nil =>
    intro op cl op2 cl2 e hval hmid _
    simp only [processNeighbours, Prod.mk.injEq] at hval
    obtain ⟨rfl, rfl, rfl⟩ := hval
    refine ⟨hmid.startLabel, hmid.startUnique, hmid.linkLabel, hmid.rooted,
      hmid.openLabeled, ?_⟩
    intro w cw hcw hnone ec v hedge
    by_cases hwu : w = u
    · subst hwu
      have hcweq : cw = cu := by
        rw [hmid.uLabel] at hcw
        exact (Option.some.inj hcw).symm
      subst hcweq
      rcases hmid.todo ec v hedge with hl | hdone
      · cases hl
      · exact hdone
    · exact hmid.expandedExcept w cw hcw hnone hwu ec v hedge
  | cons q l ih =>
    obtain ⟨ec0, v0⟩ := q
    intro op cl op2 cl2 e hval hmid henone
    simp only [processNeighbours] at hval
    cases hclv : cl v0 with
    | PathFrom m ex =>
      rw [hclv] at hval
      dsimp only at hval
      by_cases hle : ex ≤ ec0 + cu
      · rw [if_pos hle] at hval
        refine ih op cl hval ⟨hmid.startLabel, hmid.startUnique, hmid.linkLabel,
          hmid.rooted, hmid.openLabeled, hmid.expandedExcept, hmid.uLabel,
          ?_, ?_⟩ henone
        · intro ec v hedge
          rcases hmid.todo ec v hedge with hl | hdone
          · rcases List.mem_cons.mp hl with heq | hl2
            · right
              have h1 : ec = ec0 := congrArg Prod.fst heq
              have h2 : v = v0 := congrArg Prod.snd heq
              rw [h1, h2]
              exact ⟨ex, by rw [hclv]; rfl, hle⟩
            · exact Or.inl hl2
          · exact Or.inr hdone
        · intro q hq
          exact hmid.sub q (List.mem_cons_of_mem _ hq)
      · rw [if_neg hle] at hval
        simp only [Prod.mk.injEq] at hval
        obtain ⟨_, _, he⟩ := hval
        rw [← he] at henone
        cases henone
    | StartingPoint c0 =>
      rw [hclv] at hval
      refine ih op cl hval ⟨hmid.startLabel, hmid.startUnique, hmid.linkLabel,
        hmid.rooted, hmid.openLabeled, hmid.expandedExcept, hmid.uLabel,
        ?_, ?_⟩ henone
      · intro ec v hedge
        rcases hmid.todo ec v hedge with hl | hdone
        · rcases List.mem_cons.mp hl with heq | hl2
          · right
            have h1 : ec = ec0 := congrArg Prod.fst heq
            have h2 : v = v0 := congrArg Prod.snd heq
            rw [h1, h2]
            refine ⟨c0, by rw [hclv]; rfl, ?_⟩
            have hz := (hmid.startUnique v0 c0 hclv).2
            omega
          · exact Or.inl hl2
        · exact Or.inr hdone
      · intro q hq
        exact hmid.sub q (List.mem_cons_of_mem _ hq)
    | Unvisited =>
      rw [hclv] at hval
      have hv0start : v0 ≠ start := by
        intro he
        rw [he, hmid.startLabel] at hclv
        cases hclv
      have hv0u : v0 ≠ u := by
        intro he
        have hu := hmid.uLabel
        rw [← he, hclv] at hu
        cases hu
      have huNe : cl u ≠ Unvisited := by
        intro he
        have hu := hmid.uLabel
        rw [he] at hu
        cases hu
      have hnolink : ∀ n m c, cl n = PathFrom m c → m ≠ v0 := by
        intro n m c hlk he
        obtain ⟨cm, hcm, _⟩ := hmid.linkLabel n m c hlk
        rw [he, hclv] at hcm
        cases hcm
      have hlab : ∀ x, x ≠ v0 →
          setClosed cl v0 (PathFrom u (ec0 + cu)) x = cl x :=
        fun x hx => setClosed_ne cl _ hx
      have hlabv0 : setClosed cl v0 (PathFrom u (ec0 + cu)) v0 =
          PathFrom u (ec0 + cu) := setClosed_self cl v0 _
      refine ih _ _ hval ⟨?_, ?_, ?_, ?_, ?_, ?_, ?_, ?_, ?_⟩ henone
      · rw [hlab start (Ne.symm hv0start)]
        exact hmid.startLabel
      · intro n c hn
        by_cases hnv : n = v0
        · have hvn := hnv.symm
          subst hvn
          rw [hlabv0] at hn
          cases hn
        · rw [hlab n hnv] at hn
          exact hmid.startUnique n c hn
      · intro n m c hn
        by_cases hnv : n = v0
        · have hvn := hnv.symm
          subst hvn
          rw [hlabv0] at hn
          have hm : u = m := congrArg (fun s => match s with
            | PathFrom a _ => a | _ => 0) hn
          have hc : ec0 + cu = c := congrArg (fun s => match s with
            | PathFrom _ b => b | _ => 0) hn
          subst hm
          refine ⟨cu, ?_, ec0, ?_, hc.symm⟩
          · rw [hlab u (Ne.symm hv0u)]
            exact hmid.uLabel
          · exact hmid.sub (ec0, v0) (List.mem_cons_self _ _)
        · rw [hlab n hnv] at hn
          obtain ⟨cm, hcm, ec2, hec2, hceq⟩ := hmid.linkLabel n m c hn
          have hmv0 : m ≠ v0 := hnolink n m c hn
          refine ⟨cm, ?_, ec2, hec2, hceq⟩
          rw [hlab m hmv0]
          exact hcm
      · intro n hn
        by_cases hnv : n = v0
        · have hvn := hnv.symm
          subst hvn
          exact Rooted.link hlabv0 (rooted_set hclv (hmid.rooted u huNe))
        · rw [hlab n hnv] at hn
          exact rooted_set hclv (hmid.rooted n hn)
      · intro it hit
        rcases List.mem_append.mp hit with hin | hinnew
        · obtain ⟨c, hc, hpri⟩ := hmid.openLabeled it hin
          have hnv : it.node ≠ v0 := by
            intro he
            rw [he, hclv] at hc
            cases hc
          exact ⟨c, by rw [hlab _ hnv]; exact hc, hpri⟩
        · rw [List.mem_singleton] at hinnew
          subst hinnew
          exact ⟨ec0 + cu, by rw [hlabv0]; rfl, rfl⟩
      · intro w cw hcw hnone hwu ec v hedge
        have hv0w : v0 ≠ w :=
          hnone ⟨ec0 + cu + hF v0, v0⟩ (List.mem_append_right _ (by simp))
        have hwv0 : w ≠ v0 := Ne.symm hv0w
        rw [hlab w hwv0] at hcw
        have hnone2 : ∀ it ∈ op, it.node ≠ w :=
          fun it hit => hnone it (List.mem_append_left _ hit)
        obtain ⟨cv, hcv, hcvle⟩ :=
          hmid.expandedExcept w cw hcw hnone2 hwu ec v hedge
        have hvv0 : v ≠ v0 := by
          intro he
          rw [he, hclv] at hcv
          cases hcv
        exact ⟨cv, by rw [hlab v hvv0]; exact hcv, hcvle⟩
      · rw [hlab u (Ne.symm hv0u)]
        exact hmid.uLabel
      · intro ec v hedge
        rcases hmid.todo ec v hedge with hl | hdone
        · rcases List.mem_cons.mp hl with heq | hl2
          · right
            have h1 : ec = ec0 := congrArg Prod.fst heq
            have h2 : v = v0 := congrArg Prod.snd heq
            rw [h1, h2]
            exact ⟨ec0 + cu, by rw [hlabv0]; rfl, le_refl _⟩
          · exact Or.inl hl2
        · obtain ⟨cv, hcv, hcvle⟩ := hdone
          have hvv0 : v ≠ v0 := by
            intro he
            rw [he, hclv] at hcv
            cases hcv
          exact Or.inr ⟨cv, by rw [hlab v hvv0]; exact hcv, hcvle⟩
      · intro q hq
        exact hmid.sub q (List.mem_cons_of_mem _ hq)

/-- Helper: along any path out of a labelled node, either the endpoint
is labelled at a cost bounded by the label plus the path cost, or some
open node sits on the path with its label plus remaining path cost
bounded the same way. -/
lemma inv_path_bound {nbf : Nat → List (Nat × Nat)} {hF : Nat → Nat}
    {start : Nat} {op : List OpenItem} {cl : Closed}
    (hinv : Inv nbf hF start op cl) :
    ∀ {z : Nat} {q : List Nat} {cq : Nat}, IsPath nbf z q cq →
      ∀ cz, currentCostOf (cl z) = some cz →
      (∃ cg gl, q.getLast? = some gl ∧ currentCostOf (cl gl) = some cg ∧
        cg ≤ cz + cq) ∨
      (∃ x ∈ op, ∃ qs cqs cw, IsPath nbf x.node qs cqs ∧
        qs.getLast? = q.getLast? ∧ currentCostOf (cl x.node) = some cw ∧
        cw + cqs ≤ cz + cq) := by
  intro z q cq hpath
  induction hpath with
  | single n =>
    intro cz hcz
    exact Or.inl ⟨cz, n, rfl, hcz, by omega⟩
  | @cons n m c k p hedge hpath2 ih =>
    intro cz hcz
    by_cases hop : ∃ x ∈ op, x.node = n
    · obtain ⟨x, hxop, hxn⟩ := hop
      right
      refine ⟨x, hxop, n :: p, c + k, cz, ?_, rfl, ?_, le_refl _⟩
      · rw [hxn]
        exact IsPath.cons hedge hpath2
      · rw [hxn]
        exact hcz
    · push_neg at hop
      obtain ⟨cm, hcm, hcmle⟩ := hinv.expanded n cz hcz hop c m hedge
      have hlast : (n :: p).getLast? = p.getLast? :=
        getLast?_cons_ne_nil n (isPath_ne_nil hpath2)
      rcases ih cm hcm with ⟨cg, gl, hgl, hcg, hle⟩ |
        ⟨x, hxop, qs, cqs, cw, hqs, hql, hcw, hle⟩
      · left
        refine ⟨cg, gl, ?_, hcg, by omega⟩
        rw [hlast]
        exact hgl
      · right
        refine ⟨x, hxop, qs, cqs, cw, hqs, ?_, hcw, by omega⟩
        rw [hlast]
        exact hql

/-- Helper: when the popped item satisfies the goal, its recorded cost
is a lower bound of the cost of every path from the start to it. -/
lemma goal_pop_optimal {nbf : Nat → List (Nat × Nat)} {hF : Nat → Nat}
    {isGoalF : Nat → Bool} {start : Nat} {op : List OpenItem} {cl : Closed}
    (hinv : Inv nbf hF start op cl) (hadm : Admissible nbf isGoalF hF)
    {item : OpenItem} {rest : List OpenItem}
    (hpop : popMin op = some (item, rest)) (hgoal : isGoalF item.node = true) :
    ∃ cg, currentCostOf (cl item.node) = some cg ∧
      ∀ q cq, IsPath nbf start q cq → q.getLast? = some item.node → cg ≤ cq := by
  have hmem : item ∈ op := (popMin_perm hpop).mem_iff.mpr (List.mem_cons_self _ _)
  obtain ⟨cg, hcg, hpri⟩ := hinv.openLabeled item hmem
  have hzero : hF item.node = 0 := by
    have := hadm item.node [item.node] 0 item.node (IsPath.single _) rfl hgoal
    omega
  refine ⟨cg, hcg, ?_⟩
  intro q cq hq hqlast
  have hstart : currentCostOf (cl start) = some 0 := by
    rw [hinv.startLabel]
    rfl
  rcases inv_path_bound hinv hq 0 hstart with
    ⟨cg2, gl, hgl, hcg2, hle⟩ | ⟨x, hxop, qs, cqs, cw, hqs, hql, hcw, hle⟩
  · have hgleq : gl = item.node := by
      rw [hqlast] at hgl
      exact (Option.some.inj hgl).symm
    subst hgleq
    have hcgeq : cg2 = cg := by
      rw [hcg] at hcg2
      exact (Option.some.inj hcg2).symm
    omega
  · have hbound : hF x.node ≤ cqs := by
      apply hadm x.node qs cqs item.node hqs _ hgoal
      rw [hql]
      exact hqlast
    obtain ⟨cw2, hcw2, hpri2⟩ := hinv.openLabeled x hxop
    have hcweq : cw2 = cw := by
      rw [hcw] at hcw2
      exact (Option.some.inj hcw2).symm
    have hminle := popMin_le hpop x hxop
    omega

/-- Helper: every rooted node carries a back-link chain from the start
that is a genuine path of cost equal to its recorded label. -/
lemma rooted_chain {nbf : Nat → List (Nat × Nat)} {hF : Nat → Nat}
    {start : Nat} {op : List OpenItem} {cl : Closed}
    (hinv : Inv nbf hF start op cl) :
    ∀ n, Rooted cl n →
      ∃ p c, ChainFrom cl start n p ∧ IsPath nbf start p c ∧
        p.getLast? = some n ∧ currentCostOf (cl n) = some c := by
  intro n hr
  induction hr with
  | @sp n c hsp =>
    obtain ⟨hn, hc⟩ := hinv.startUnique n c hsp
    rw [hn]
    rw [hn] at hsp
    refine ⟨[start], 0, ChainFrom.root ?_, IsPath.single start, rfl, ?_⟩
    · intro m c2 hcon
      rw [hsp] at hcon
      cases hcon
    · rw [hsp, hc]
      rfl
  | @link n m c hlink hm ih =>
    obtain ⟨p, cm, hchain, hpath, hplast, hcost⟩ := ih
    obtain ⟨cm2, hcm2, ec, hec, hceq⟩ := hinv.linkLabel n m c hlink
    have hcmeq : cm2 = cm := by
      rw [hcost] at hcm2
      exact (Option.some.inj hcm2).symm
    refine ⟨p ++ [n], cm + ec, ChainFrom.step hchain hlink, ?_,
      List.getLast?_concat _, ?_⟩
    · exact isPath_snoc hpath hplast hec
    · rw [hlink]
      simp only [currentCostOf, Option.some.injEq]
      omega

/-- Helper: the caller-side seeding establishes the loop invariant. -/
lemma inv_seed (nbf : Nat → List (Nat × Nat)) (hF : Nat → Nat) (start : Nat) :
    Inv nbf hF start (seedOpen hF start) (seedClosed start) := by
  have hself : seedClosed start start = StartingPoint 0 := setClosed_self _ _ _
  have hne : ∀ n, n ≠ start → seedClosed start n = Unvisited :=
    fun n hn => setClosed_ne _ _ hn
  refine ⟨hself, ?_, ?_, ?_, ?_, ?_⟩
  · intro n c hn
    by_cases hns : n = start
    · subst hns
      rw [hself] at hn
      injection hn with h0
      exact ⟨rfl, h0.symm⟩
    · rw [hne n hns] at hn
      cases hn
  · intro n m c hn
    by_cases hns : n = start
    · subst hns
      rw [hself] at hn
      cases hn
    · rw [hne n hns] at hn
      cases hn
  · intro n hn
    by_cases hns : n = start
    · subst hns
      exact Rooted.sp hself
    · rw [hne n hns] at hn
      exact absurd rfl hn
  · intro it hit
    rw [seedOpen, List.mem_singleton] at hit
    subst hit
    refine ⟨0, ?_, ?_⟩
    · show currentCostOf (seedClosed start start) = some 0
      rw [hself]
      rfl
    · show hF start = 0 + hF start
      omega
  · intro u cu hcu hnone ec v hedge
    by_cases hus : u = start
    · exact absurd hus.symm (hnone ⟨hF start, start⟩ (List.mem_singleton_self _))
    · rw [hne u hus] at hcu
      cases hcu

/-- Helper: an error-free successful run maintains the invariant and
returns a goal node whose recorded cost bounds the cost of every path
from the start to it. -/
lemma astarLoop_ok {nbf : Nat → List (Nat × Nat)} {hF : Nat → Nat}
    {isGoalF : Nat → Bool} {start : Nat} (hadm : Admissible nbf isGoalF hF) :
    ∀ (fuel : Nat) (op : List OpenItem) (cl : Closed) {g : Nat} {clF : Closed},
      Inv nbf hF start op cl →
      astarLoop isGoalF hF nbf fuel op cl = some (Except.ok g, clF) →
      isGoalF g = true ∧
      (∃ opF, Inv nbf hF start opF clF) ∧ Rooted clF g ∧
      ∃ cg, currentCostOf (clF g) = some cg ∧
        ∀ q cq, IsPath nbf start q cq → q.getLast? = some g → cg ≤ cq := by
  intro fuel
  induction fuel with
  | zero =>
    intro op cl g clF _ hrun
    simp only [astarLoop] at hrun
    cases hrun
  | succ f ih =>
    intro op cl g clF hinv hrun
    simp only [astarLoop] at hrun
    cases hpop : popMin op with
    | none =>
      rw [hpop] at hrun
      simp at hrun
    | some pr =>
      obtain ⟨item, rest⟩ := pr
      rw [hpop] at hrun
      dsimp only at hrun
      by_cases hg : isGoalF item.node = true
      · rw [if_pos hg] at hrun
        simp only [Option.some.injEq, Prod.mk.injEq] at hrun
        obtain ⟨hok, hcl⟩ := hrun
        have hgn : item.node = g := by
          injection hok
        subst hcl
        obtain ⟨cg, hcg, hbound⟩ := goal_pop_optimal hinv hadm hpop hg
        have hne2 : cl item.node ≠ Unvisited := by
          intro he
          rw [he] at hcg
          cases hcg
        subst hgn
        exact ⟨hg, ⟨op, hinv⟩, hinv.rooted _ hne2, cg, hcg, hbound⟩
      · rw [if_neg hg] at hrun
        cases hcc : currentCostOf (cl item.node) with
        | none =>
          rw [hcc] at hrun
          simp at hrun
        | some cu =>
          rw [hcc] at hrun
          dsimp only at hrun
          rcases hval : processNeighbours item.node cu hF (nbf item.node) rest cl
            with ⟨op2, cl2, e⟩
          rw [hval] at hrun
          cases e with
          | some err =>
            simp at hrun
          | none =>
            dsimp only at hrun
            have hrest : ∀ x ∈ rest, x ∈ op := fun x hx =>
              (popMin_perm hpop).symm.subset (List.mem_cons_of_mem _ hx)
            have hmid : MidInv nbf hF start item.node cu (nbf item.node) rest cl := by
              refine ⟨hinv.startLabel, hinv.startUnique, hinv.linkLabel,
                hinv.rooted, fun it hit => hinv.openLabeled it (hrest it hit),
                ?_, hcc, fun ec v hedge => Or.inl hedge, fun q hq => hq⟩
              intro w cw hcw hnone hwu ec v hedge
              have hnone2 : ∀ it2 ∈ op, it2.node ≠ w := by
                intro it2 hit2
                rcases List.mem_cons.mp ((popMin_perm hpop).subset hit2) with h1 | h2
                · rw [h1]
                  exact fun he => hwu he.symm
                · exact hnone it2 h2
              exact hinv.expanded w cw hcw hnone2 ec v hedge
            have hinv2 := processNeighbours_inv _ _ _ hval hmid rfl
            exact ih op2 cl2 hinv2 hrun

/-- Claim C1: for every graph with non-negative edge costs and every
admissible heuristic, if astar seeded at the start node returns Ok(g)
then unwinding the final closed list from g yields a path from the
start to g whose summed edge cost is less than or equal to the summed
edge cost of every path in the graph from the start to g. -/
theorem c1_astar_optimal (nbf : Nat → List (Nat × Nat)) (isGoalF : Nat → Bool)
    (hF : Nat → Nat) (start fuel g : Nat) (clF : Closed)
    (hadm : Admissible nbf isGoalF hF)
    (hrun : astarLoop isGoalF hF nbf fuel (seedOpen hF start) (seedClosed start) =
      some (Except.ok g, clF)) :
    ∃ (k : Nat) (p : List Nat) (c : Nat),
      unwind clF k g = some p ∧ IsPath nbf start p c ∧ p.getLast? = some g ∧
      ∀ q cq, IsPath nbf start q cq → q.getLast? = some g → c ≤ cq := by
  obtain ⟨hgoal, ⟨opF, hinvF⟩, hrooted, cg, hcg, hbound⟩ :=
    astarLoop_ok hadm fuel _ _ (inv_seed nbf hF start) hrun
  obtain ⟨p, c, hchain, hpath, hplast, hcost⟩ := rooted_chain hinvF g hrooted
  obtain ⟨k, hk⟩ := chainFrom_unwind hchain
  have hceq : c = cg := by
    rw [hcg] at hcost
    exact (Option.some.inj hcost).symm
  refine ⟨k, p, c, hk, hpath, hplast, ?_⟩
  intro q cq hq hql
  rw [hceq]
  exact hbound q cq hq hql

/-- Witness for C1 on the two-node graph with one edge of cost 1 and
the zero heuristic. -/
theorem c1_astar_optimal_witness :
    ∃ clF, astarLoop (fun n => n == 1) (fun _ => 0) nbTwo 3
        (seedOpen (fun _ => 0) 0) (seedClosed 0) = some (Except.ok 1, clF) ∧
      ∃ (k : Nat) (p : List Nat) (c : Nat),
        unwind clF k 1 = some p ∧ IsPath nbTwo 0 p c ∧ p.getLast? = some 1 ∧
        ∀ q cq, IsPath nbTwo 0 q cq → q.getLast? = some 1 → c ≤ cq :=
  ⟨_, rfl, c1_astar_optimal nbTwo (fun n => n == 1) (fun _ => 0) 0 3 1 _
    (fun _ _ c _ _ _ _ => Nat.zero_le c) rfl⟩

/-- Helper: popping an item of known cost from an invariant-satisfying
state establishes the mid-expansion invariant for its whole neighbour
list. -/
lemma midInv_of_pop {nbf : Nat → List (Nat × Nat)} {hF : Nat → Nat}
    {start : Nat} {op rest : List OpenItem} {cl : Closed}
    {item : OpenItem} {cu : Nat} (hinv : Inv nbf hF start op cl)
    (hpop : popMin op = some (item, rest))
    (hcc : currentCostOf (cl item.node) = some cu) :
    MidInv nbf hF start item.node cu (nbf item.node) rest cl := by
  have hrest : ∀ x ∈ rest, x ∈ op := fun x hx =>
    (popMin_perm hpop).symm.subset (List.mem_cons_of_mem _ hx)
  refine ⟨hinv.startLabel, hinv.startUnique, hinv.linkLabel,
    hinv.rooted, fun it hit => hinv.openLabeled it (hrest it hit),
    ?_, hcc, fun ec v hedge => Or.inl hedge, fun q hq => hq⟩
  intro w cw hcw hnone hwu ec v hedge
  have hnone2 : ∀ it2 ∈ op, it2.node ≠ w := by
    intro it2 hit2
    rcases List.mem_cons.mp ((popMin_perm hpop).subset hit2) with h1 | h2
    · rw [h1]
      exact fun he => hwu he.symm
    · exact hnone it2 h2
  exact hinv.expanded w cw hcw hnone2 ec v hedge

/-- Helper: a run whose goal is unreachable from the seeded start never
returns Ok and never raises OpenItemNotInClosedList: it ends in
PathNotFound or FoundHigherCostPath. -/
lemma astarLoop_no_goal {nbf : Nat → List (Nat × Nat)} {hF : Nat → Nat}
    {isGoalF : Nat → Bool} {start : Nat}
    (hnopath : ¬ ∃ q cq gl, IsPath nbf start q cq ∧ q.getLast? = some gl ∧
      isGoalF gl = true) :
    ∀ (fuel : Nat) (op : List OpenItem) (cl : Closed)
      {res : Except AStarError Nat} {clF : Closed},
      Inv nbf hF start op cl →
      astarLoop isGoalF hF nbf fuel op cl = some (res, clF) →
      res = Except.error AStarError.PathNotFound ∨
      res = Except.error AStarError.FoundHigherCostPath := by
  intro fuel
  induction fuel with
  | zero =>
    intro op cl res clF _ hrun
    simp only [astarLoop] at hrun
    cases hrun
  | succ f ih =>
    intro op cl res clF hinv hrun
    simp only [astarLoop] at hrun
    cases hpop : popMin op with
    | none =>
      rw [hpop] at hrun
      dsimp only at hrun
      simp only [Option.some.injEq, Prod.mk.injEq] at hrun
      exact Or.inl hrun.1.symm
    | some pr =>
      obtain ⟨item, rest⟩ := pr
      rw [hpop] at hrun
      dsimp only at hrun
      by_cases hg : isGoalF item.node = true
      · exfalso
        have hmem : item ∈ op :=
          (popMin_perm hpop).mem_iff.mpr (List.mem_cons_self _ _)
        obtain ⟨c, hc, _⟩ := hinv.openLabeled item hmem
        have hne2 : cl item.node ≠ Unvisited := by
          intro he
          rw [he] at hc
          cases hc
        obtain ⟨p, cpath, _, hpath, hplast, _⟩ :=
          rooted_chain hinv item.node (hinv.rooted _ hne2)
        exact hnopath ⟨p, cpath, item.node, hpath, hplast, hg⟩
      · rw [if_neg hg] at hrun
        cases hcc : currentCostOf (cl item.node) with
        | none =>
          exfalso
          have hmem : item ∈ op :=
            (popMin_perm hpop).mem_iff.mpr (List.mem_cons_self _ _)
          obtain ⟨c, hc, _⟩ := hinv.openLabeled item hmem
          rw [hcc] at hc
          cases hc
        | some cu =>
          rw [hcc] at hrun
          dsimp only at hrun
          rcases hval : processNeighbours item.node cu hF (nbf item.node) rest cl
            with ⟨op2, cl2, e⟩
          rw [hval] at hrun
          cases e with
          | some err =>
            dsimp only at hrun
            simp only [Option.some.injEq, Prod.mk.injEq] at hrun
            right
            rw [← hrun.1, processNeighbours_error _ _ _ hval]
          | none =>
            dsimp only at hrun
            exact ih op2 cl2
              (processNeighbours_inv _ _ _ hval (midInv_of_pop hinv hpop hcc) rfl)
              hrun

/-- Claim C8 (amended): astar returns PathNotFound at the iteration
whose pop finds the open container empty; and a search whose goal is
unreachable from the seeded start returns PathNotFound or
FoundHigherCostPath, never Ok and never OpenItemNotInClosedList. -/
theorem c8_disconnected (nbf : Nat → List (Nat × Nat)) (isGoalF : Nat → Bool)
    (hF : Nat → Nat) (start fuel : Nat) (res : Except AStarError Nat)
    (clF : Closed) :
    (∀ (op : List OpenItem) (cl : Closed) (f2 : Nat), popMin op = none →
      astarLoop isGoalF hF nbf (f2 + 1) op cl =
        some (Except.error AStarError.PathNotFound, cl)) ∧
    ((¬ ∃ q cq gl, IsPath nbf start q cq ∧ q.getLast? = some gl ∧
        isGoalF gl = true) →
      astarLoop isGoalF hF nbf fuel (seedOpen hF start) (seedClosed start) =
        some (res, clF) →
      res = Except.error AStarError.PathNotFound ∨
      res = Except.error AStarError.FoundHigherCostPath) := by
  constructor
  · intro op cl f2 hempty
    simp only [astarLoop]
    rw [hempty]
  · intro hnopath hrun
    exact astarLoop_no_goal hnopath fuel _ _ (inv_seed nbf hF start) hrun

/-- Claim C8, counterexample: with the goal predicate unsatisfiable
(hence disconnected from the seeded start), the search on the graph
nbCons does not return PathNotFound: it returns FoundHigherCostPath. -/
theorem c8_counterexample :
    (¬ ∃ q cq gl, IsPath nbCons 0 q cq ∧ q.getLast? = some gl ∧
      (fun (_ : Nat) => false) gl = true) ∧
    consRun.map Prod.fst = some (Except.error AStarError.FoundHigherCostPath) ∧
    consRun.map Prod.fst ≠ some (Except.error AStarError.PathNotFound) := by
  refine ⟨?_, rfl, ?_⟩
  · rintro ⟨q, cq, gl, _, _, hgl⟩
    exact Bool.noConfusion hgl
  · intro h
    rw [show consRun.map Prod.fst =
      some (Except.error AStarError.FoundHigherCostPath) from rfl] at h
    simp at h

/-- Witness for C8 at a concrete empty open list and at a concrete
disconnected one-node search. -/
theorem c8_disconnected_witness :
    (astarLoop (fun n => n == 1) (fun _ => 0) (fun _ => []) 1 [] clChain =
      some (Except.error AStarError.PathNotFound, clChain)) ∧
    ((Except.error AStarError.PathNotFound : Except AStarError Nat) =
        Except.error AStarError.PathNotFound ∨
      (Except.error AStarError.PathNotFound : Except AStarError Nat) =
        Except.error AStarError.FoundHigherCostPath) :=
  ⟨(c8_disconnected (fun _ => []) (fun n => n == 1) (fun _ => 0) 0 2
      (Except.error AStarError.PathNotFound) (seedClosed 0)).1 [] clChain 0 rfl,
   (c8_disconnected (fun _ => []) (fun n => n == 1) (fun _ => 0) 0 2
      (Except.error AStarError.PathNotFound) _).2
    (by
      rintro ⟨q, cq, gl, hq, hl, hg⟩
      cases hq with
      | single =>
        simp only [List.getLast?_singleton, Option.some.injEq] at hl
        subst hl
        exact absurd hg (by decide)
      | cons hedge _ => cases hedge)
    rfl⟩

end EveAstar
